import Mathlib

/-!
Verification of the keyword/brand analytics tool (`src/app.py`) against its
specification.  The Python source is shallowly embedded: strings are `List Char`,
numbers coming out of `pd.to_numeric` are `Option ℚ` (`none` = NaN), tables are
lists of rows.  Each embedded definition mirrors the corresponding Python code.
-/

namespace SITools

/-- ASCII lower-casing of one character, the model of Python `str.lower`
applied character-wise (`app.py` lines 69, 72, 79, 110). -/
def lowChar (c : Char) : Char :=
  if 65 ≤ c.toNat ∧ c.toNat ≤ 90 then Char.ofNat (c.toNat + 32) else c

/-- ASCII upper-casing of one character, the model of Python `str.upper`
applied character-wise (`app.py` line 370). -/
def upChar (c : Char) : Char :=
  if 97 ≤ c.toNat ∧ c.toNat ≤ 122 then Char.ofNat (c.toNat - 32) else c

/-- Characters matched by the regex class `\w` (used through `(?<!\w)` /
`(?!\w)` in `app.py` lines 97, 107): alphanumeric or underscore. -/
def isWordChar (c : Char) : Bool :=
  c.isAlphanum || c == '_'

/-- Python whitespace, the characters removed by `str.strip` and matched by
the regex class `\s`: space, tab, newline, carriage return, form feed,
vertical tab. -/
def isSpaceChar (c : Char) : Bool :=
  c == ' ' || c == '\t' || c == '\n' || c == '\r' || c == '\x0c' || c == '\x0b'

/-- Characters of the separator class `[\n\s,;\t]` used by the ASIN dedup
handler (`app.py` line 368). -/
def isSep (c : Char) : Bool :=
  isSpaceChar c || c == ',' || c == ';'
/-! ### ASIN dedup utility (`app.py` lines 364-388)

`re.split(r'[\n\s,;\t]+', text)` followed by dropping empty pieces is
tokenisation into maximal runs of non-separator characters; each token is
then stripped (a no-op on separator-free tokens) and upper-cased, and
duplicates are removed keeping the first occurrence (`dict.fromkeys`). -/

/-- Maximal runs of non-separator characters, the model of
`re.split(r'[\n\s,;\t]+', ...)` with empty pieces discarded. -/
def tokenize : List Char → List (List Char)
  | [] => []
  | [c] => if isSep c then [] else [[c]]
  | c :: d :: rest =>
    if isSep c then tokenize (d :: rest)
    else if isSep d then [c] :: tokenize rest
    else
      match tokenize (d :: rest) with
      | [] => [[c]]
      | t :: ts => (c :: t) :: ts

/-- Order-preserving removal of duplicates keeping the first occurrence:
`dict.fromkeys` collects keys in first-seen order, skipping keys already
seen.  `firstDedup = firstDedupAux []`. -/
def firstDedupAux {α : Type} [DecidableEq α] (seen : List α) : List α → List α
  | [] => []
  | x :: xs => if x ∈ seen then firstDedupAux seen xs else x :: firstDedupAux (x :: seen) xs

/-- The model of `list(dict.fromkeys(...))`. -/
def firstDedup {α : Type} [DecidableEq α] (l : List α) : List α :=
  firstDedupAux [] l

/-- Upper-case a token (`asin.strip().upper()`; stripping is the identity on
separator-free tokens). -/
def upTok (t : List Char) : List Char := t.map upChar

structure DedupResult where
  originalCount : Nat
  uniqueCount : Nat
  uniqueAsins : List (List Char)
  deriving DecidableEq, Repr

/-- The ASIN dedup computation of `app.py` lines 368-379. -/
def asinDedup (input : List Char) : DedupResult :=
  let asinList := (tokenize input).map upTok
  let uniqueAsins := firstDedup asinList
  { originalCount := asinList.length
    uniqueCount := uniqueAsins.length
    uniqueAsins := uniqueAsins }

/-- Space-joining of the deduplicated tokens (`' '.join(...)`, `app.py`
line 412), which is the text a user would feed back in to re-run dedup. -/
def joinSpace : List (List Char) → List Char
  | [] => []
  | [t] => t
  | t :: ts => t ++ ' ' :: joinSpace ts

/-! ### Brand matching engine (`app.py` lines 56-127)

`match_brands` lower-cases every keyword, builds an insertion-ordered
term-to-brand mapping from the manual rules, and classifies each keyword by
a manual-rule pass followed by a brand-list pass, each pass taking the
first term that occurs in the keyword as a whole word
(`(?<!\w)term(?!\w)`, case-insensitively). -/

/-- Lower-case a token (`str.lower` on a string). -/
def lowTok (t : List Char) : List Char := t.map lowChar

/-- `true` iff position `i` of `kw` is absent or holds a non-word
character — the regex look-arounds `(?<!\w)` / `(?!\w)`. -/
def notWordCharAt (kw : List Char) (i : Nat) : Bool :=
  match kw[i]? with
  | none => true
  | some c => !isWordChar c

/-- `true` iff `t` occurs in `kw` starting at position `p` with non-word
(or absent) characters on both sides. -/
def wordMatchAt (t kw : List Char) (p : Nat) : Bool :=
  ((kw.drop p).take t.length == t) &&
  (p == 0 || notWordCharAt kw (p - 1)) &&
  notWordCharAt kw (p + t.length)

/-- `re.search(r'(?<!\w)' + re.escape(t) + r'(?!\w)', kw)` is truthy:
some position of `kw` carries a whole-word occurrence of `t`. -/
def wholeWordMatch (t kw : List Char) : Bool :=
  (List.range (kw.length + 1)).any (wordMatchAt t kw)

/-- Python `str.strip` (whitespace only) on a token. -/
def stripTok (t : List Char) : List Char :=
  ((t.dropWhile isSpaceChar).reverse.dropWhile isSpaceChar).reverse

/-- Python `str.split(',')`: split at every comma, keeping empty pieces. -/
def splitComma : List Char → List (List Char)
  | [] => [[]]
  | c :: rest =>
    if c = ',' then [] :: splitComma rest
    else
      match splitComma rest with
      | [] => [[c]]
      | p :: ps => (c :: p) :: ps

/-- The match terms of one manual rule:
`[kw.strip().lower() for kw in cell.split(',') if kw.strip()]`
(`app.py` line 79). -/
def ruleTerms (cell : List Char) : List (List Char) :=
  ((splitComma cell).filter (fun p => stripTok p ≠ [])).map (fun p => lowTok (stripTok p))

/-- Python dict assignment `d[k] = v` on an insertion-ordered association
list: an existing key keeps its position and has its value overwritten, a
new key is appended at the end. -/
def insertKV (m : List (List Char × List Char)) (k v : List Char) :
    List (List Char × List Char) :=
  match m with
  | [] => [(k, v)]
  | (k', v') :: rest => if k' = k then (k, v) :: rest else (k', v') :: insertKV rest k v

/-- The `manual_map` dict of `app.py` lines 75-81: iterate rules in input
order, and each rule's terms in input order, assigning term → brand name. -/
def buildManualMap (rules : List (List Char × List Char)) :
    List (List Char × List Char) :=
  rules.foldl (fun m rule => (ruleTerms rule.2).foldl (fun m' t => insertKV m' t rule.1) m) []

/-- Python truthiness of the `matched_brand` variable: `None` and the empty
string are falsy. -/
def truthy : Option (List Char) → Bool
  | none => false
  | some s => !s.isEmpty

/-- Pass 1 (`app.py` lines 93-101): first manual term that is nonempty and
whole-word-matches the lowered keyword; sets `(matched_brand, matched_term)`. -/
def manualPass (manualMap : List (List Char × List Char)) (kwLower : List Char) :
    Option (List Char) × Option (List Char) :=
  match manualMap.find? (fun p => !p.1.isEmpty && wholeWordMatch p.1 kwLower) with
  | some (t, b) => (some b, some t)
  | none => (none, none)

/-- Pass 2 in isolation (`app.py` lines 104-113): first nonempty lowered
brand that whole-word-matches, recording the first original-cased brand
name with that lowering. -/
def brandPass (brandData : List (List Char)) (kwLower : List Char) :
    Option (List Char) × Option (List Char) :=
  match (brandData.map lowTok).find? (fun b => !b.isEmpty && wholeWordMatch b kwLower) with
  | some bl =>
    match brandData.find? (fun ob => lowTok ob = bl) with
    | some ob => (some ob, some bl)
    | none => (none, none)
  | none => (none, none)

/-- The `(matched_brand, matched_term)` pair after both passes: pass 2 runs
only when pass 1 left `matched_brand` falsy, and overwrites the variables
only when it finds a match (`app.py` lines 88-113). -/
def matchVars (manualMap : List (List Char × List Char)) (brandData : List (List Char))
    (kwLower : List Char) : Option (List Char) × Option (List Char) :=
  let r1 := manualPass manualMap kwLower
  if truthy r1.1 then r1
  else
    match (brandData.map lowTok).find? (fun b => !b.isEmpty && wholeWordMatch b kwLower) with
    | some bl =>
      match brandData.find? (fun ob => lowTok ob = bl) with
      | some ob => (some ob, some bl)
      | none => r1
    | none => r1

/-- The two classification labels of the `词性` column
(`'Branded KWs'` / `'Non-Branded KWs'`). -/
inductive WordType
  | branded
  | nonBranded
  deriving DecidableEq

/-- One row of the `match_brands` result: keyword and volume copied from
the input, matched brand name (`品牌名称`), matched term (`品牌`),
classification (`词性`) and the always-null feature column (`特性参数`).
The volume cell passes through unchanged, hence the type parameter. -/
structure MatchRow (α : Type) where
  keyword : List Char
  volume : α
  brandName : Option (List Char)
  matchedTerm : Option (List Char)
  wordType : WordType
  featureParam : Option (List Char)
  deriving DecidableEq

/-- The final per-row update (`app.py` lines 116-119): only a truthy
`matched_brand` is recorded. -/
def matchRowOf {α : Type} (manualMap : List (List Char × List Char))
    (brandData : List (List Char)) (kw : List Char) (vol : α) : MatchRow α :=
  let r := matchVars manualMap brandData (lowTok kw)
  if truthy r.1 then
    { keyword := kw, volume := vol, brandName := r.1, matchedTerm := r.2,
      wordType := .branded, featureParam := none }
  else
    { keyword := kw, volume := vol, brandName := none, matchedTerm := none,
      wordType := .nonBranded, featureParam := none }

/-- `match_brands` (`app.py` lines 56-127): `none` models the `None` return
on empty inputs. -/
def matchBrands {α : Type} (product : List (List Char × α))
    (brandData : List (List Char)) (rules : List (List Char × List Char)) :
    Option (List (MatchRow α)) :=
  if product.isEmpty then none
  else if brandData.isEmpty then none
  else
    some (product.map (fun r => matchRowOf (buildManualMap rules) brandData r.1 r.2))

/-! ### Brand list ingestion (`app.py` line 219)

`brand_df.dropna(subset=['品牌名称']).drop_duplicates(subset=['品牌名称'])`:
null names are removed, then exact duplicates are dropped keeping the first
occurrence. -/

/-- The stored brand list after ingestion: each input cell is `none` (null)
or a name; nulls are dropped, then exact-equality dedup keeps first
occurrences. -/
def brandIngest (rows : List (Option (List Char))) : List (List Char) :=
  firstDedup (rows.filterMap id)

/-! ### Ranking engine (`app.py` lines 26-54)

`process_product_data` coerces the volume column to numeric (`errors='coerce'`,
so unparsable cells become NaN), drops NaN and non-positive rows, sorts by
volume descending, and assigns rank, cumulative volume and cumulative share.
Volumes are modelled as exact rationals; the claims' ±1e-9 floating tolerance
is subsumed by exact equality.  `sort_values` is modelled by a sort that is
correct for the volume-descending order; the source does not fix the relative
order of rows with equal volumes (pandas' default sort kind), and no theorem
below depends on it. -/

/-- One input row: keyword text and the volume cell after
`pd.to_numeric(..., errors='coerce')` (`none` = NaN). -/
structure ProductRow where
  keyword : List Char
  volume : Option ℚ
  deriving DecidableEq

/-- Rows surviving `dropna(subset=['月搜索量'])` and the `> 0` filter
(`app.py` lines 42-43). -/
def cleanRows (rows : List ProductRow) : List (List Char × ℚ) :=
  rows.filterMap (fun r =>
    match r.volume with
    | some v => if 0 < v then some (r.keyword, v) else none
    | none => none)

/-- Insert a row into a volume-descending list, before the first row of
volume ≤ its own. -/
def insertByVol (x : List Char × ℚ) : List (List Char × ℚ) → List (List Char × ℚ)
  | [] => [x]
  | y :: ys => if y.2 ≤ x.2 then x :: y :: ys else y :: insertByVol x ys

/-- Sort by volume descending (`sort_values('月搜索量', ascending=False)`,
`app.py` line 50). -/
def sortByVolDesc : List (List Char × ℚ) → List (List Char × ℚ)
  | [] => []
  | x :: xs => insertByVol x (sortByVolDesc xs)

/-- One output row of the ranking engine: rank (`Rank`), cumulative volume
(`月搜索量累计和`) and cumulative share (`月搜索量累计占比`). -/
structure RankedRow where
  keyword : List Char
  volume : ℚ
  rank : Nat
  cumVolume : ℚ
  cumShare : ℚ
  deriving DecidableEq

/-- Ranks `i, i+1, ...`, cumulative sums continuing from `acc`, and shares
of `total`, in sorted order (`app.py` lines 51-53). -/
def rankedOf (total : ℚ) : Nat → ℚ → List (List Char × ℚ) → List RankedRow
  | _, _, [] => []
  | i, acc, q :: rest =>
    { keyword := q.1, volume := q.2, rank := i, cumVolume := acc + q.2,
      cumShare := (acc + q.2) / total } :: rankedOf total (i + 1) (acc + q.2) rest

/-- `process_product_data` (`app.py` lines 26-54); `none` models the `None`
return when no rows survive cleaning (the missing-column check belongs to
ingestion and is not modelled). -/
def processProductData (rows : List ProductRow) : Option (List RankedRow) :=
  if (cleanRows rows).isEmpty then none
  else
    some (rankedOf (((sortByVolDesc (cleanRows rows)).map Prod.snd).sum) 1 0
      (sortByVolDesc (cleanRows rows)))

/-- Modelled from the spec's words ("cumulative_volume equal to the running
sum of volume in rank order"): running sums of a list continuing from
`acc`. -/
def runningSums (acc : ℚ) : List ℚ → List ℚ
  | [] => []
  | v :: rest => (acc + v) :: runningSums (acc + v) rest

/-! ### Session state around `match_brands` (`app.py` lines 17-24, 56-127, 283-290)

The matcher's writes all target `result_df`, a `.copy()` of two columns of
the product table (`app.py` line 68); the session inputs are only read.
The row loop of lines 88-119 is embedded as index-wise in-place updates on
the copied working table, held in a state record next to the untouched
input tables. -/

/-- A working row of `result_df` while the temporary `keyword_lower`
column exists. -/
structure WorkRow (α : Type) where
  keyword : List Char
  volume : α
  keywordLower : List Char
  brandName : Option (List Char)
  matchedTerm : Option (List Char)
  wordType : WordType

/-- The session state: the three input tables (`product_data`,
`brand_data`, `custom_rules`) and the `matched_results` slot. -/
structure MatchState (α : Type) where
  product : Option (List (List Char × α))
  brand : Option (List (List Char))
  rules : List (List Char × List Char)
  results : Option (List (MatchRow α))

/-- Lines 68-86: copy the two input columns into a fresh working table and
add the lowered-keyword and default classification columns. -/
def initWork {α : Type} (product : List (List Char × α)) : List (WorkRow α) :=
  product.map (fun r => ⟨r.1, r.2, lowTok r.1, none, none, .nonBranded⟩)

/-- The conditional cell writes of lines 116-119 on one row. -/
def applyMatch {α : Type} (manualMap : List (List Char × List Char))
    (brandData : List (List Char)) (row : WorkRow α) : WorkRow α :=
  let r := matchVars manualMap brandData row.keywordLower
  if truthy r.1 then
    { row with brandName := r.1, matchedTerm := r.2, wordType := .branded }
  else row

/-- One iteration of the loop of lines 88-119: in-place update of the
working table at index `idx` (`result_df.at[idx, ...] = ...`). -/
def loopBody {α : Type} (manualMap : List (List Char × List Char))
    (brandData : List (List Char)) (work : List (WorkRow α)) (idx : Nat) :
    List (WorkRow α) :=
  work.modify (applyMatch manualMap brandData) idx

/-- Lines 121-125: add the null `特性参数` column and drop
`keyword_lower`. -/
def finishWork {α : Type} (work : List (WorkRow α)) : List (MatchRow α) :=
  work.map (fun w => ⟨w.keyword, w.volume, w.brandName, w.matchedTerm, w.wordType, none⟩)

/-- `match_brands` as executed: validation, working-table allocation, the
index loop, and the final column fixes. -/
def matchBrandsExec {α : Type} (product : List (List Char × α))
    (brandData : List (List Char)) (rules : List (List Char × List Char)) :
    Option (List (MatchRow α)) :=
  if product.isEmpty then none
  else if brandData.isEmpty then none
  else
    some (finishWork
      ((List.range (initWork product).length).foldl
        (loopBody (buildManualMap rules) brandData) (initWork product)))

/-- The tab-3 button handler (`app.py` lines 283-293): when both inputs are
present the result slot is overwritten with the matcher's output; otherwise
an error is shown and the state is left unchanged. -/
def runMatch {α : Type} (s : MatchState α) : MatchState α :=
  match s.product, s.brand with
  | some product, some brandData =>
    { s with results := matchBrandsExec product brandData s.rules }
  | _, _ => s

/-! ### Batch merge engines (`app.py` lines 439-491 and 493-593)

Both handlers loop over the uploaded files, append each file that fails to
parse to `error_files` and each parsed table (with the provenance column
`时间` set from the file's base name) to `all_data`, then concatenate with
`pd.concat(..., ignore_index=True)` when at least one file succeeded, and
show a warning otherwise. -/

/-- A parsed table: header (column names) and rows of cells; a `none` cell
models null/NaN. -/
structure Table where
  header : List (List Char)
  rows : List (List (Option (List Char)))
  deriving DecidableEq

/-- The provenance column name `时间`. -/
def timeCol : List Char := "时间".toList

/-- `name.rsplit('.', 1)[0]`: the file name with its last dot-suffix
stripped (unchanged when there is no dot). -/
def baseName (n : List Char) : List Char :=
  if n.contains '.' then (((n.reverse).dropWhile (fun c => !(c == '.'))).drop 1).reverse
  else n

/-- `f.lower().endswith(('.csv', '.xlsx'))` on an archive entry name
(`app.py` line 456). -/
def hasTabularExt (n : List Char) : Bool :=
  (".csv".toList.isSuffixOf (lowTok n)) || (".xlsx".toList.isSuffixOf (lowTok n))

/-- One entry of a zip archive: its name and either a parsed table or
`none` when reading/parsing the member raises. -/
structure ZipEntry where
  name : List Char
  content : Option Table
  deriving DecidableEq

/-- One uploaded zip file; `corrupt` models `zipfile.ZipFile` raising
before any entry can be listed. -/
structure ZipFile where
  name : List Char
  corrupt : Bool
  entries : List ZipEntry
  deriving DecidableEq

/-- One uploaded plain csv/xlsx file; `parse` is `none` when
`pd.read_csv`/`pd.read_excel` raises. -/
structure PlainFile where
  name : List Char
  parse : Option Table
  deriving DecidableEq

/-- `df[c] = v` (`app.py` line 467): overwrite column `c` if present,
else append it as the last column, with value `v` in every row. -/
def setCol (t : Table) (c : List Char) (v : Option (List Char)) : Table :=
  match t.header.findIdx? (fun h => h == c) with
  | some i => { header := t.header, rows := t.rows.map (fun row => row.set i v) }
  | none => { header := t.header ++ [c], rows := t.rows.map (fun row => row ++ [v]) }

/-- `df.insert(0, c, v)` (`app.py` line 519): raises `ValueError` (here
`none`) when column `c` already exists, else prepends it as the first
column with value `v` in every row. -/
def insertColFront (t : Table) (c : List Char) (v : Option (List Char)) : Option Table :=
  if t.header.contains c then none
  else some { header := c :: t.header, rows := t.rows.map (fun row => v :: row) }

/-- Result columns of `pd.concat`: union of the input headers in order of
first appearance. -/
def unionHeaders (ts : List Table) : List (List Char) :=
  ts.foldl (fun acc t => acc ++ (t.header.filter (fun c => !(acc.contains c)))) []

/-- Align one row of table `t` to the unified header: a column absent from
`t` yields null. -/
def reindexRow (hdr : List (List Char)) (t : Table) (row : List (Option (List Char))) :
    List (Option (List Char)) :=
  hdr.map (fun c =>
    match t.header.findIdx? (fun h => h == c) with
    | some i => (row[i]?).getD none
    | none => none)

/-- `pd.concat(all_data, ignore_index=True)`: rows of all tables in upload
order, aligned to the unified header. -/
def concatTables (ts : List Table) : Table :=
  { header := unionHeaders ts
    rows := (ts.map (fun t => t.rows.map (reindexRow (unionHeaders ts) t))).flatten }

/-- Processing of one zip file (`app.py` lines 452-470): fails on a corrupt
archive, on an archive with no `.csv`/`.xlsx` entry, or on a member that
does not parse; otherwise its first tabular entry with the `时间` column
set to the zip's base name. -/
def processZip (z : ZipFile) : Option Table :=
  if z.corrupt then none
  else
    match z.entries.filter (fun e => hasTabularExt e.name) with
    | [] => none
    | e :: _ =>
      match e.content with
      | none => none
      | some t => some (setCol t timeCol (some (baseName z.name)))

/-- Processing of one plain file (`app.py` lines 507-521): fails when the
file does not parse or when inserting the `时间` column at the front
raises. -/
def processPlain (f : PlainFile) : Option Table :=
  match f.parse with
  | none => none
  | some t => insertColFront t timeCol (some (baseName f.name))

/-- Outcome of a batch merge: a merged table or an empty-result warning,
plus the failed file names in both cases. -/
inductive MergeOutcome where
  | merged (t : Table) (failed : List (List Char))
  | noData (failed : List (List Char))
  deriving DecidableEq

/-- The `all_data` / `error_files` accumulation loop shared by both merge
handlers (`app.py` lines 450-470 and 504-526). -/
def mergeAcc {F : Type} (proc : F → Option Table) (nm : F → List Char) (l : List F) :
    List Table × List (List Char) :=
  l.foldl (fun acc f =>
    match proc f with
    | some t => (acc.1 ++ [t], acc.2)
    | none => (acc.1, acc.2 ++ [nm f])) ([], [])

/-- The zip merge handler of `app.py` lines 449-491. -/
def zipMergeHandler (zips : List ZipFile) : MergeOutcome :=
  if (mergeAcc processZip ZipFile.name zips).1.isEmpty then
    .noData (mergeAcc processZip ZipFile.name zips).2
  else
    .merged (concatTables (mergeAcc processZip ZipFile.name zips).1)
      (mergeAcc processZip ZipFile.name zips).2

/-- The plain-file merge handler of `app.py` lines 503-593. -/
def plainMergeHandler (files : List PlainFile) : MergeOutcome :=
  if (mergeAcc processPlain PlainFile.name files).1.isEmpty then
    .noData (mergeAcc processPlain PlainFile.name files).2
  else
    .merged (concatTables (mergeAcc processPlain PlainFile.name files).1)
      (mergeAcc processPlain PlainFile.name files).2

/-! ### Theorems -/

theorem char_eq_iff_toNat {c d : Char} : c = d ↔ c.toNat = d.toNat := by
  constructor
  · intro h; rw [h]
  · intro h
    apply Char.ext
    exact congrArg UInt32.mk (BitVec.eq_of_toNat_eq h)

theorem toNat_ofNat_ascii {n : Nat} (h : n < 128) : (Char.ofNat n).toNat = n := by
  have hv : n.isValidChar := Or.inl (by omega)
  rw [Char.ofNat, dif_pos hv]
  simp [Char.ofNatAux, Char.toNat, UInt32.toNat, BitVec.toNat_ofNatLt]

theorem upChar_toNat_of_lower {c : Char} (h : 97 ≤ c.toNat ∧ c.toNat ≤ 122) :
    (upChar c).toNat = c.toNat - 32 := by
  rw [upChar, if_pos h]
  exact toNat_ofNat_ascii (by omega)

theorem upChar_fix {d : Char} (h : ¬(97 ≤ d.toNat ∧ d.toNat ≤ 122)) : upChar d = d := by
  simp only [upChar]
  rw [if_neg h]

/-- Upper-casing is idempotent. -/
theorem upChar_upChar (c : Char) : upChar (upChar c) = upChar c := by
  by_cases h : 97 ≤ c.toNat ∧ c.toNat ≤ 122
  · exact upChar_fix (by have := upChar_toNat_of_lower h; omega)
  · rw [upChar_fix h, upChar_fix h]

theorem isSep_iff (c : Char) : isSep c = true ↔
    (c.toNat = 32 ∨ c.toNat = 9 ∨ c.toNat = 10 ∨ c.toNat = 13 ∨ c.toNat = 12 ∨
      c.toNat = 11 ∨ c.toNat = 44 ∨ c.toNat = 59) := by
  simp only [isSep, isSpaceChar, Bool.or_eq_true, beq_iff_eq, char_eq_iff_toNat,
    show (' ').toNat = 32 from rfl, show ('\t').toNat = 9 from rfl,
    show ('\n').toNat = 10 from rfl, show ('\r').toNat = 13 from rfl,
    show ('\x0c').toNat = 12 from rfl, show ('\x0b').toNat = 11 from rfl,
    show (',').toNat = 44 from rfl, show (';').toNat = 59 from rfl]
  tauto

theorem isSep_upChar (c : Char) : isSep (upChar c) = isSep c := by
  by_cases h : 97 ≤ c.toNat ∧ c.toNat ≤ 122
  · have ht := upChar_toNat_of_lower h
    have h1 : isSep c = false := by
      rw [Bool.eq_false_iff]
      intro hc
      rcases (isSep_iff c).mp hc with h' | h' | h' | h' | h' | h' | h' | h' <;> omega
    have h2 : isSep (upChar c) = false := by
      rw [Bool.eq_false_iff]
      intro hc
      rcases (isSep_iff (upChar c)).mp hc with h' | h' | h' | h' | h' | h' | h' | h' <;> omega
    rw [h1, h2]
  · rw [upChar_fix h]
/-! ### Structural lemmas about `firstDedup` and `tokenize` -/

theorem firstDedupAux_sublist {α : Type} [DecidableEq α] :
    ∀ (seen : List α) (l : List α), (firstDedupAux seen l).Sublist l := by
  intro seen l
  induction l generalizing seen with
  | nil => simp [firstDedupAux]
  | cons x xs IH =>
    simp only [firstDedupAux]
    split
    · exact (IH seen).cons x
    · exact (IH (x :: seen)).cons₂ x

theorem firstDedupAux_nodup {α : Type} [DecidableEq α] :
    ∀ (seen : List α) (l : List α),
      (firstDedupAux seen l).Nodup ∧ ∀ x ∈ firstDedupAux seen l, x ∉ seen := by
  intro seen l
  induction l generalizing seen with
  | nil => simp [firstDedupAux]
  | cons x xs IH =>
    simp only [firstDedupAux]
    split
    · exact IH seen
    · rename_i hx
      obtain ⟨h1, h2⟩ := IH (x :: seen)
      refine ⟨List.nodup_cons.mpr ⟨fun hmem => (h2 x hmem) (List.mem_cons_self x seen), h1⟩, ?_⟩
      intro y hy
      rcases List.mem_cons.mp hy with rfl | hy'
      · exact hx
      · exact fun hseen => (h2 y hy') (List.mem_cons_of_mem x hseen)

theorem firstDedup_sublist {α : Type} [DecidableEq α] (l : List α) :
    (firstDedup l).Sublist l :=
  firstDedupAux_sublist [] l

theorem firstDedup_nodup {α : Type} [DecidableEq α] (l : List α) : (firstDedup l).Nodup :=
  (firstDedupAux_nodup [] l).1

theorem firstDedupAux_of_nodup {α : Type} [DecidableEq α] :
    ∀ (seen : List α) (l : List α), l.Nodup → (∀ x ∈ l, x ∉ seen) →
      firstDedupAux seen l = l := by
  intro seen l
  induction l generalizing seen with
  | nil => intro _ _; rfl
  | cons x xs IH =>
    intro hnd hdisj
    simp only [firstDedupAux]
    rw [if_neg (hdisj x (List.mem_cons_self x xs))]
    congr 1
    apply IH (x :: seen) (List.nodup_cons.mp hnd).2
    intro y hy hmem
    rcases List.mem_cons.mp hmem with rfl | h'
    · exact (List.nodup_cons.mp hnd).1 hy
    · exact hdisj y (List.mem_cons_of_mem x hy) h'

theorem firstDedup_of_nodup {α : Type} [DecidableEq α] (l : List α) (h : l.Nodup) :
    firstDedup l = l :=
  firstDedupAux_of_nodup [] l h (by simp)

/-- Every token produced by `tokenize` is nonempty and free of separator
characters. -/
theorem tokenize_sepFree :
    ∀ s : List Char, ∀ t ∈ tokenize s, t ≠ [] ∧ ∀ c ∈ t, isSep c = false := by
  intro s
  induction s with
  | nil => simp [tokenize]
  | cons c rest IH =>
    intro t ht
    cases rest with
    | nil =>
      simp only [tokenize] at ht
      by_cases hc : isSep c
      · rw [if_pos hc] at ht; simp at ht
      · rw [if_neg hc] at ht
        have hc' : isSep c = false := Bool.eq_false_iff.mpr hc
        rcases List.mem_singleton.mp ht with rfl
        exact ⟨by simp, by intro x hx; rcases List.mem_singleton.mp hx with rfl; exact hc'⟩
    | cons d rest' =>
      simp only [tokenize] at ht
      by_cases hc : isSep c
      · rw [if_pos hc] at ht
        exact IH t ht
      · rw [if_neg hc] at ht
        have hc' : isSep c = false := Bool.eq_false_iff.mpr hc
        by_cases hd : isSep d
        · rw [if_pos hd] at ht
          rcases List.mem_cons.mp ht with rfl | ht'
          · exact ⟨by simp, by intro x hx; rcases List.mem_singleton.mp hx with rfl; exact hc'⟩
          · have hsub : t ∈ tokenize (d :: rest') := by
              cases rest' with
              | nil => simp [tokenize, hd] at ht' ⊢
              | cons e rest'' => simpa [tokenize, hd] using ht'
            exact IH t hsub
        · rw [if_neg hd] at ht
          cases htok : tokenize (d :: rest') with
          | nil =>
            rw [htok] at ht
            rcases List.mem_singleton.mp ht with rfl
            exact ⟨by simp, by intro x hx; rcases List.mem_singleton.mp hx with rfl; exact hc'⟩
          | cons t' ts =>
            rw [htok] at ht
            rcases List.mem_cons.mp ht with rfl | ht'
            · have h' := IH t' (by rw [htok]; exact List.mem_cons_self _ _)
              refine ⟨by simp, ?_⟩
              intro x hx
              rcases List.mem_cons.mp hx with rfl | hx'
              · exact hc'
              · exact h'.2 x hx'
            · exact IH t (by rw [htok]; exact List.mem_cons_of_mem _ ht')

/-- Dropping a leading separator character does not change the tokens. -/
theorem tokenize_sep_cons {d : Char} (hd : isSep d = true) (s : List Char) :
    tokenize (d :: s) = tokenize s := by
  cases s with
  | nil => simp [tokenize, hd]
  | cons e s' => simp [tokenize, hd]

/-- Appending a separator-headed (or empty) suffix to a nonempty
separator-free token tokenizes to the token followed by the suffix's
tokens. -/
theorem tokenize_append (t : List Char) (hne : t ≠ [])
    (hsf : ∀ c ∈ t, isSep c = false) (s : List Char)
    (hs : s = [] ∨ ∃ d s', s = d :: s' ∧ isSep d = true) :
    tokenize (t ++ s) = t :: tokenize s := by
  induction t with
  | nil => exact absurd rfl hne
  | cons c t' IH =>
    have hc : isSep c = false := hsf c (List.mem_cons_self _ _)
    cases t' with
    | nil =>
      rcases hs with rfl | ⟨d, s', rfl, hd⟩
      · simp [tokenize, hc]
      · simp only [List.singleton_append, tokenize, hc, Bool.false_eq_true, if_false, hd,
          if_true]
        rw [tokenize_sep_cons hd]
    | cons c2 t'' =>
      have hc2 : isSep c2 = false := hsf c2 (List.mem_cons_of_mem _ (List.mem_cons_self _ _))
      have hrec := IH (by simp) (fun x hx => hsf x (List.mem_cons_of_mem _ hx))
      simp only [List.cons_append] at hrec ⊢
      simp only [tokenize, hc, Bool.false_eq_true, if_false, hc2]
      rw [hrec]

/-- Tokenizing the space-join of nonempty separator-free tokens recovers
exactly those tokens. -/
theorem tokenize_joinSpace :
    ∀ ts : List (List Char),
      (∀ t ∈ ts, t ≠ [] ∧ ∀ c ∈ t, isSep c = false) →
      tokenize (joinSpace ts) = ts := by
  intro ts
  induction ts with
  | nil => intro _; rfl
  | cons t ts' IH =>
    intro h
    obtain ⟨hne, hsf⟩ := h t (List.mem_cons_self _ _)
    cases ts' with
    | nil =>
      show tokenize (joinSpace [t]) = [t]
      have := tokenize_append t hne hsf [] (Or.inl rfl)
      simpa [joinSpace] using this
    | cons t2 ts'' =>
      show tokenize (t ++ ' ' :: joinSpace (t2 :: ts'')) = t :: t2 :: ts''
      have hsp : isSep ' ' = true := by decide
      rw [tokenize_append t hne hsf (' ' :: joinSpace (t2 :: ts''))
        (Or.inr ⟨' ', joinSpace (t2 :: ts''), rfl, hsp⟩)]
      rw [tokenize_sep_cons hsp]
      rw [IH (fun x hx => h x (List.mem_cons_of_mem _ hx))]

theorem asinDedup_uniqueAsins_props (s : List Char) :
    ∀ t ∈ (asinDedup s).uniqueAsins,
      t ≠ [] ∧ (∀ c ∈ t, isSep c = false) ∧ upTok t = t := by
  intro t ht
  have hsub : t ∈ (tokenize s).map upTok := (firstDedup_sublist _).subset ht
  obtain ⟨t0, ht0, rfl⟩ := List.mem_map.mp hsub
  obtain ⟨hne, hsf⟩ := tokenize_sepFree s t0 ht0
  refine ⟨by simpa [upTok] using hne, ?_, ?_⟩
  · intro c hc
    obtain ⟨c0, hc0, rfl⟩ := List.mem_map.mp hc
    rw [isSep_upChar]
    exact hsf c0 hc0
  · simp [upTok, List.map_map, Function.comp, upChar_upChar]

theorem asinDedup_joinSpace_of_clean (u : List (List Char))
    (h1 : ∀ t ∈ u, t ≠ []) (h2 : ∀ t ∈ u, ∀ c ∈ t, isSep c = false)
    (h3 : ∀ t ∈ u, upTok t = t) (h4 : u.Nodup) :
    asinDedup (joinSpace u) = ⟨u.length, u.length, u⟩ := by
  have htok := tokenize_joinSpace u (fun t ht => ⟨h1 t ht, h2 t ht⟩)
  have hmap : u.map upTok = u := by
    calc u.map upTok = u.map id := List.map_congr_left (fun t ht => h3 t ht)
      _ = u := List.map_id u
  simp only [asinDedup, htok, hmap, firstDedup_of_nodup u h4]

/-- C6 (counterexample): on input `"B08 b08 B08,X1; X1"` the dedup utility
does produce `unique_list = ["B08", "X1"]` and `unique_count = 2`, but its
`original_count` is 5 (the five tokens `B08 b08 B08 X1 X1`), not 4 as the
claim states; hence the claimed triple of outputs is false. -/
theorem dedup_example_original_count_not_four :
    ¬((asinDedup ("B08 b08 B08,X1; X1".toList)).uniqueAsins = ["B08".toList, "X1".toList] ∧
      (asinDedup ("B08 b08 B08,X1; X1".toList)).originalCount = 4 ∧
      (asinDedup ("B08 b08 B08,X1; X1".toList)).uniqueCount = 2) := by
  decide

/-- C6 (amended): on input `"B08 b08 B08,X1; X1"` the dedup utility returns
`unique_list = ["B08", "X1"]`, `original_count = 5` and `unique_count = 2`. -/
theorem dedup_example :
    (asinDedup ("B08 b08 B08,X1; X1".toList)).uniqueAsins = ["B08".toList, "X1".toList] ∧
    (asinDedup ("B08 b08 B08,X1; X1".toList)).originalCount = 5 ∧
    (asinDedup ("B08 b08 B08,X1; X1".toList)).uniqueCount = 2 := by
  decide

/-! ### Matching lemmas -/

theorem notWordCharAt_iff (kw : List Char) (i : Nat) :
    notWordCharAt kw i = true ↔ ∀ c, kw[i]? = some c → isWordChar c = false := by
  unfold notWordCharAt
  cases h : kw[i]? with
  | none => simp
  | some c => simp [Bool.not_eq_true']

theorem wordMatchAt_iff (t kw : List Char) (p : Nat) :
    wordMatchAt t kw p = true ↔
      (kw.drop p).take t.length = t ∧
      (p = 0 ∨ ∀ c, kw[p - 1]? = some c → isWordChar c = false) ∧
      (∀ c, kw[p + t.length]? = some c → isWordChar c = false) := by
  unfold wordMatchAt
  simp [Bool.and_eq_true, Bool.or_eq_true, beq_iff_eq, notWordCharAt_iff, and_assoc]

theorem find?_append_of_notfound {α : Type} (p : α → Bool)
    (l₁ : List α) (x : α) (l₂ : List α) (h : ∀ y ∈ l₁, p y = false) (hx : p x = true) :
    List.find? p (l₁ ++ x :: l₂) = some x := by
  induction l₁ with
  | nil =>
    rw [List.nil_append]
    exact List.find?_cons_of_pos _ hx
  | cons a l IH =>
    rw [List.cons_append, List.find?_cons_of_neg]
    · exact IH (fun y hy => h y (List.mem_cons_of_mem a hy))
    · simp [h a (List.mem_cons_self a l)]

theorem manualPass_eq_none (manualMap : List (List Char × List Char)) (kwLower : List Char)
    (h : ∀ q ∈ manualMap, q.1 = [] ∨ wholeWordMatch q.1 kwLower = false) :
    manualPass manualMap kwLower = (none, none) := by
  unfold manualPass
  rw [List.find?_eq_none.mpr]
  intro q hq
  rcases h q hq with h' | h'
  · simp [h']
  · simp [h']

theorem insertKV_lookup_self (m : List (List Char × List Char)) (k v : List Char) :
    List.lookup k (insertKV m k v) = some v := by
  induction m with
  | nil => simp [insertKV, List.lookup]
  | cons q rest IH =>
    obtain ⟨k', v'⟩ := q
    simp only [insertKV]
    by_cases h : k' = k
    · rw [if_pos h]
      simp [List.lookup]
    · rw [if_neg h]
      rw [List.lookup]
      have : (k == k') = false := by
        simp only [beq_eq_false_iff_ne, ne_eq]
        exact fun hk => h hk.symm
      rw [this]
      exact IH

theorem insertKV_lookup_other (m : List (List Char × List Char)) (k v k' : List Char)
    (h : k' ≠ k) : List.lookup k' (insertKV m k v) = List.lookup k' m := by
  induction m with
  | nil =>
    simp only [insertKV, List.lookup]
    rw [show (k' == k) = false by simpa using h]
  | cons q rest IH =>
    obtain ⟨k0, v0⟩ := q
    simp only [insertKV]
    by_cases h0 : k0 = k
    · rw [if_pos h0]
      subst h0
      rw [List.lookup, List.lookup, show (k' == k0) = false by simpa using h]
    · rw [if_neg h0]
      rw [List.lookup, List.lookup]
      cases hk : k' == k0
      · exact IH
      · rfl

theorem insertKV_keys (m : List (List Char × List Char)) (k v : List Char) :
    (insertKV m k v).map Prod.fst =
      (if k ∈ m.map Prod.fst then m.map Prod.fst else m.map Prod.fst ++ [k]) := by
  induction m with
  | nil => simp [insertKV]
  | cons q rest IH =>
    obtain ⟨k0, v0⟩ := q
    simp only [insertKV]
    by_cases h0 : k0 = k
    · subst h0
      rw [if_pos rfl]
      simp [List.mem_cons]
    · rw [if_neg h0]
      simp only [List.map_cons]
      rw [IH]
      have hne : (k = k0) = False := by
        simp only [eq_iff_iff, iff_false]
        exact fun hk => h0 hk.symm
      by_cases hmem : k ∈ rest.map Prod.fst
      · rw [if_pos hmem, if_pos (by simp [List.mem_cons, hmem])]
      · rw [if_neg hmem, if_neg (by simp [List.mem_cons, hne, hmem])]
        simp

/-- C1: a term (brand name or manual term) matches a keyword only at
whole-word positions — the characters adjacent to the match, when they
exist, are not alphanumeric or underscore; the classification depends only
on the lower-cased keyword (case-insensitivity); and concretely, brand
`"ace"` leaves keyword `"space"` NON_BRANDED but makes `"ace pro"` BRANDED
with matched term `"ace"`. -/
theorem whole_word_matching :
    (∀ t kw : List Char,
      wholeWordMatch t kw = true ↔
        ∃ p, p ≤ kw.length ∧ (kw.drop p).take t.length = t ∧
          (p = 0 ∨ ∀ c, kw[p - 1]? = some c → isWordChar c = false) ∧
          (∀ c, kw[p + t.length]? = some c → isWordChar c = false)) ∧
    (∀ (manualMap : List (List Char × List Char)) (brandData : List (List Char))
        (kw kw' : List Char), lowTok kw = lowTok kw' →
        matchVars manualMap brandData (lowTok kw) =
          matchVars manualMap brandData (lowTok kw')) ∧
    matchBrands [("space".toList, (0 : ℕ)), ("ace pro".toList, 0)] ["ace".toList] [] =
      some [⟨"space".toList, 0, none, none, .nonBranded, none⟩,
            ⟨"ace pro".toList, 0, some "ace".toList, some "ace".toList, .branded, none⟩] := by
  refine ⟨?_, ?_, by decide⟩
  · intro t kw
    unfold wholeWordMatch
    rw [List.any_eq_true]
    constructor
    · rintro ⟨p, hp, hm⟩
      obtain ⟨h1, h2, h3⟩ := (wordMatchAt_iff t kw p).mp hm
      exact ⟨p, by simpa using Nat.lt_succ_iff.mp (List.mem_range.mp hp), h1, h2, h3⟩
    · rintro ⟨p, hple, h1, h2, h3⟩
      exact ⟨p, List.mem_range.mpr (Nat.lt_succ_of_le hple),
        (wordMatchAt_iff t kw p).mpr ⟨h1, h2, h3⟩⟩
  · intro manualMap brandData kw kw' h
    rw [h]

/-- C2: manual rules are checked before the brand list and the first
matching manual term in the mapping's construction order wins (no
longest-match preference); the mapping itself is a Python dict built by
insertion: an existing term keeps its position but its brand is
overwritten, so a term listed by several rules maps to the brand of the
last rule listing it; the brand list is consulted only when no manual term
matches; concretely, a manual rule `x → A` beats the brand-list entry `x`,
and with manual terms `ace` (→ A) then `ace pro` (→ B), keyword
`"ace pro"` is matched to brand `A` via term `ace`. -/
theorem manual_rule_precedence :
    (∀ (manualMap : List (List Char × List Char)) (brandData : List (List Char))
        (kw : List Char) (pre post : List (List Char × List Char)) (t b : List Char),
        manualMap = pre ++ (t, b) :: post →
        (∀ q ∈ pre, q.1 = [] ∨ wholeWordMatch q.1 (lowTok kw) = false) →
        t ≠ [] → wholeWordMatch t (lowTok kw) = true → b ≠ [] →
        matchVars manualMap brandData (lowTok kw) = (some b, some t)) ∧
    (∀ (manualMap : List (List Char × List Char)) (brandData : List (List Char))
        (kwLower : List Char),
        (∀ q ∈ manualMap, q.1 = [] ∨ wholeWordMatch q.1 kwLower = false) →
        matchVars manualMap brandData kwLower = brandPass brandData kwLower) ∧
    (∀ (m : List (List Char × List Char)) (k v : List Char),
        List.lookup k (insertKV m k v) = some v ∧
        (insertKV m k v).map Prod.fst =
          (if k ∈ m.map Prod.fst then m.map Prod.fst else m.map Prod.fst ++ [k])) ∧
    (∀ (m : List (List Char × List Char)) (k v k' : List Char), k' ≠ k →
        List.lookup k' (insertKV m k v) = List.lookup k' m) ∧
    buildManualMap [("A".toList, "x, y".toList), ("B".toList, "z, x".toList)] =
      [("x".toList, "B".toList), ("y".toList, "A".toList), ("z".toList, "B".toList)] ∧
    matchBrands [("x y".toList, (0 : ℕ))] ["x".toList] [("A".toList, "x".toList)] =
      some [⟨"x y".toList, 0, some "A".toList, some "x".toList, .branded, none⟩] ∧
    matchBrands [("ace pro".toList, (0 : ℕ))] ["zz".toList]
        [("A".toList, "ace".toList), ("B".toList, "ace pro".toList)] =
      some [⟨"ace pro".toList, 0, some "A".toList, some "ace".toList, .branded, none⟩] := by
  refine ⟨?_, ?_, fun m k v => ⟨insertKV_lookup_self m k v, insertKV_keys m k v⟩,
    insertKV_lookup_other, by decide, by decide, by decide⟩
  · intro manualMap brandData kw pre post t b hmap hpre ht hmatch hb
    subst hmap
    have hfind : List.find?
        (fun p => !p.1.isEmpty && wholeWordMatch p.1 (lowTok kw))
        (pre ++ (t, b) :: post) = some (t, b) := by
      apply find?_append_of_notfound
      · intro q hq
        rcases hpre q hq with h' | h'
        · simp [h']
        · simp [h']
      · simp [List.isEmpty_iff, ht, hmatch]
    unfold matchVars manualPass
    rw [hfind]
    have : truthy (some b) = true := by
      simp [truthy, List.isEmpty_iff, hb]
    simp [this]
  · intro manualMap brandData kwLower h
    have hpass := manualPass_eq_none manualMap kwLower h
    unfold matchVars brandPass
    rw [hpass]
    simp only [truthy, Bool.false_eq_true, if_false]

/-! ### Brand ingestion lemmas -/

theorem firstDedupAux_mem {α : Type} [DecidableEq α] :
    ∀ (seen l : List α) (x : α), x ∈ l → x ∉ seen → x ∈ firstDedupAux seen l := by
  intro seen l
  induction l generalizing seen with
  | nil => intro x hx; exact absurd hx (List.not_mem_nil x)
  | cons y ys IH =>
    intro x hx hseen
    simp only [firstDedupAux]
    by_cases hy : y ∈ seen
    · rw [if_pos hy]
      rcases List.mem_cons.mp hx with rfl | hx'
      · exact absurd hy hseen
      · exact IH seen x hx' hseen
    · rw [if_neg hy]
      rcases List.mem_cons.mp hx with rfl | hx'
      · exact List.mem_cons_self x _
      · by_cases hxy : x = y
        · subst hxy; exact List.mem_cons_self x _
        · refine List.mem_cons_of_mem y (IH (y :: seen) x hx' ?_)
          intro hmem
          rcases List.mem_cons.mp hmem with h' | h'
          · exact hxy h'
          · exact hseen h'

theorem firstDedup_mem {α : Type} [DecidableEq α] (l : List α) (x : α) :
    x ∈ firstDedup l ↔ x ∈ l :=
  ⟨fun h => (firstDedup_sublist l).subset h,
   fun h => firstDedupAux_mem [] l x h (List.not_mem_nil x)⟩

/-- C5 (counterexample): brand-list ingestion is *not* case-insensitive:
the table with names `"Anker"` and `"anker"` retains both rows, whose names
are equal after case folding. -/
theorem brand_ingest_case_fold_counterexample :
    brandIngest [some "Anker".toList, some "anker".toList] =
      ["Anker".toList, "anker".toList] ∧
    lowTok "Anker".toList = lowTok "anker".toList := by
  decide

/-- C5 (amended): on ingestion the brand list drops null names and is
deduplicated by *exact* (case-sensitive) name: the retained names are
pairwise distinct and are exactly the non-null input names. -/
theorem brand_ingest_exact_dedup (rows : List (Option (List Char))) :
    (brandIngest rows).Nodup ∧ ∀ x, x ∈ brandIngest rows ↔ some x ∈ rows := by
  refine ⟨firstDedup_nodup _, fun x => ?_⟩
  rw [brandIngest, firstDedup_mem]
  simp [List.mem_filterMap]

/-- C7: the dedup utility is idempotent: feeding the space-joined
`unique_list` of a previous run back in returns the same `unique_list` in
the same order, with `original_count` equal to `unique_count`. -/
theorem dedup_idempotent (s : List Char) :
    asinDedup (joinSpace (asinDedup s).uniqueAsins) =
      { originalCount := (asinDedup s).uniqueCount
        uniqueCount := (asinDedup s).uniqueCount
        uniqueAsins := (asinDedup s).uniqueAsins } := by
  have hprops := asinDedup_uniqueAsins_props s
  have h := asinDedup_joinSpace_of_clean (asinDedup s).uniqueAsins
    (fun t ht => (hprops t ht).1)
    (fun t ht => (hprops t ht).2.1)
    (fun t ht => (hprops t ht).2.2)
    (by simpa [asinDedup] using firstDedup_nodup ((tokenize s).map upTok))
  rw [h]
  rfl


/-! ### Ranking lemmas -/

theorem cleanRows_pos (rows : List ProductRow) : ∀ q ∈ cleanRows rows, 0 < q.2 := by
  intro q hq
  obtain ⟨r, _, heq⟩ := List.mem_filterMap.mp hq
  split at heq
  · split at heq
    · rename_i hpos
      cases heq
      exact hpos
    · cases heq
  · cases heq

theorem insertByVol_perm (x : List Char × ℚ) (l : List (List Char × ℚ)) :
    (insertByVol x l).Perm (x :: l) := by
  induction l with
  | nil => exact List.Perm.refl _
  | cons y ys IH =>
    simp only [insertByVol]
    split
    · exact List.Perm.refl _
    · exact (IH.cons y).trans (List.Perm.swap x y ys)

theorem sortByVolDesc_perm (l : List (List Char × ℚ)) : (sortByVolDesc l).Perm l := by
  induction l with
  | nil => exact List.Perm.refl _
  | cons x xs IH => exact (insertByVol_perm x (sortByVolDesc xs)).trans (IH.cons x)

theorem insertByVol_pairwise (x : List Char × ℚ) (l : List (List Char × ℚ))
    (h : l.Pairwise (fun a b => b.2 ≤ a.2)) :
    (insertByVol x l).Pairwise (fun a b => b.2 ≤ a.2) := by
  induction l with
  | nil => simp [insertByVol]
  | cons y ys IH =>
    simp only [insertByVol]
    split
    · rename_i hle
      refine List.pairwise_cons.mpr ⟨?_, h⟩
      intro z hz
      rcases List.mem_cons.mp hz with rfl | hz'
      · exact hle
      · exact le_trans ((List.pairwise_cons.mp h).1 z hz') hle
    · rename_i hgt
      refine List.pairwise_cons.mpr ⟨?_, IH (List.pairwise_cons.mp h).2⟩
      intro z hz
      have hz2 : z ∈ x :: ys := (insertByVol_perm x ys).mem_iff.mp hz
      rcases List.mem_cons.mp hz2 with rfl | hz'
      · exact le_of_not_le hgt
      · exact (List.pairwise_cons.mp h).1 z hz'

theorem sortByVolDesc_pairwise (l : List (List Char × ℚ)) :
    (sortByVolDesc l).Pairwise (fun a b => b.2 ≤ a.2) := by
  induction l with
  | nil => simp [sortByVolDesc]
  | cons x xs IH => exact insertByVol_pairwise x (sortByVolDesc xs) IH

theorem rankedOf_map_rank (total : ℚ) :
    ∀ (l : List (List Char × ℚ)) (i : Nat) (acc : ℚ),
      (rankedOf total i acc l).map RankedRow.rank = List.range' i l.length := by
  intro l
  induction l with
  | nil => intro i acc; rfl
  | cons q rest IH =>
    intro i acc
    simp only [rankedOf, List.map_cons, List.length_cons, List.range'_succ]
    rw [IH]

theorem rankedOf_map_kv (total : ℚ) :
    ∀ (l : List (List Char × ℚ)) (i : Nat) (acc : ℚ),
      (rankedOf total i acc l).map (fun r => (r.keyword, r.volume)) = l := by
  intro l
  induction l with
  | nil => intro i acc; rfl
  | cons q rest IH =>
    intro i acc
    simp only [rankedOf, List.map_cons]
    rw [IH]

theorem rankedOf_map_cum (total : ℚ) :
    ∀ (l : List (List Char × ℚ)) (i : Nat) (acc : ℚ),
      (rankedOf total i acc l).map RankedRow.cumVolume =
        runningSums acc (l.map Prod.snd) := by
  intro l
  induction l with
  | nil => intro i acc; rfl
  | cons q rest IH =>
    intro i acc
    simp only [rankedOf, List.map_cons, runningSums]
    rw [IH]

theorem rankedOf_share (total : ℚ) :
    ∀ (l : List (List Char × ℚ)) (i : Nat) (acc : ℚ),
      ∀ r ∈ rankedOf total i acc l, r.cumShare = r.cumVolume / total := by
  intro l
  induction l with
  | nil => intro i acc r hr; cases hr
  | cons q rest IH =>
    intro i acc r hr
    rcases List.mem_cons.mp hr with rfl | hr'
    · rfl
    · exact IH (i + 1) (acc + q.2) r hr'

theorem rankedOf_cum_bounds (total : ℚ) :
    ∀ (l : List (List Char × ℚ)) (i : Nat) (acc : ℚ), (∀ q ∈ l, 0 < q.2) →
      ∀ r ∈ rankedOf total i acc l,
        acc < r.cumVolume ∧ r.cumVolume ≤ acc + (l.map Prod.snd).sum := by
  intro l
  induction l with
  | nil => intro i acc _ r hr; cases hr
  | cons q rest IH =>
    intro i acc hpos r hr
    have hq : 0 < q.2 := hpos q (List.mem_cons_self _ _)
    have hsum : 0 ≤ (rest.map Prod.snd).sum := by
      apply List.sum_nonneg
      intro v hv
      obtain ⟨p, hp, rfl⟩ := List.mem_map.mp hv
      exact le_of_lt (hpos p (List.mem_cons_of_mem _ hp))
    rcases List.mem_cons.mp hr with rfl | hr'
    · constructor
      · simpa using hq
      · simp only [List.map_cons, List.sum_cons]
        linarith
    · obtain ⟨h1, h2⟩ := IH (i + 1) (acc + q.2) (fun p hp => hpos p (List.mem_cons_of_mem _ hp)) r hr'
      constructor
      · linarith
      · simp only [List.map_cons, List.sum_cons]
        linarith

theorem rankedOf_cum_mono (total : ℚ) :
    ∀ (l : List (List Char × ℚ)) (i : Nat) (acc : ℚ), (∀ q ∈ l, 0 < q.2) →
      (rankedOf total i acc l).Pairwise (fun a b => a.cumVolume ≤ b.cumVolume) := by
  intro l
  induction l with
  | nil => intro i acc _; simp [rankedOf]
  | cons q rest IH =>
    intro i acc hpos
    simp only [rankedOf]
    refine List.pairwise_cons.mpr ⟨?_, IH (i + 1) (acc + q.2)
      (fun p hp => hpos p (List.mem_cons_of_mem _ hp))⟩
    intro r hr
    have := (rankedOf_cum_bounds total rest (i + 1) (acc + q.2)
      (fun p hp => hpos p (List.mem_cons_of_mem _ hp)) r hr).1
    simp only
    linarith

theorem rankedOf_last (total : ℚ) :
    ∀ (l : List (List Char × ℚ)) (i : Nat) (acc : ℚ) (r : RankedRow),
      (rankedOf total i acc l).getLast? = some r →
        r.cumVolume = acc + (l.map Prod.snd).sum := by
  intro l
  induction l with
  | nil => intro i acc r hr; cases hr
  | cons q rest IH =>
    intro i acc r hr
    cases rest with
    | nil =>
      simp only [rankedOf, List.getLast?_singleton, Option.some.injEq] at hr
      subst hr
      simp
    | cons q2 rest' =>
      simp only [rankedOf, List.getLast?_cons_cons] at hr
      have := IH (i + 1) (acc + q.2) r (by simpa [rankedOf] using hr)
      simp only [List.map_cons, List.sum_cons] at this ⊢
      linarith


theorem rankedOf_map_vol (total : ℚ) :
    ∀ (l : List (List Char × ℚ)) (i : Nat) (acc : ℚ),
      (rankedOf total i acc l).map RankedRow.volume = l.map Prod.snd := by
  intro l
  induction l with
  | nil => intro i acc; rfl
  | cons q rest IH =>
    intro i acc
    simp only [rankedOf, List.map_cons]
    rw [IH]

theorem ranking_core (clean sorted : List (List Char × ℚ))
    (hperm : sorted.Perm clean) (hpair : sorted.Pairwise (fun a b => b.2 ≤ a.2))
    (hclean : clean ≠ []) (hcpos : ∀ q ∈ clean, 0 < q.2) :
    (rankedOf ((sorted.map Prod.snd).sum) 1 0 sorted).map RankedRow.rank =
      List.range' 1 (rankedOf ((sorted.map Prod.snd).sum) 1 0 sorted).length ∧
    (rankedOf ((sorted.map Prod.snd).sum) 1 0 sorted).Pairwise
      (fun a b => b.volume ≤ a.volume) ∧
    ((rankedOf ((sorted.map Prod.snd).sum) 1 0 sorted).map
      (fun r => (r.keyword, r.volume))).Perm clean ∧
    (rankedOf ((sorted.map Prod.snd).sum) 1 0 sorted).map RankedRow.cumVolume =
      runningSums 0 ((rankedOf ((sorted.map Prod.snd).sum) 1 0 sorted).map RankedRow.volume) ∧
    (∀ r ∈ rankedOf ((sorted.map Prod.snd).sum) 1 0 sorted,
      r.cumShare = r.cumVolume /
        ((rankedOf ((sorted.map Prod.snd).sum) 1 0 sorted).map RankedRow.volume).sum) ∧
    (rankedOf ((sorted.map Prod.snd).sum) 1 0 sorted).Pairwise
      (fun a b => a.cumShare ≤ b.cumShare) ∧
    (∀ r ∈ rankedOf ((sorted.map Prod.snd).sum) 1 0 sorted,
      0 < r.cumShare ∧ r.cumShare ≤ 1) ∧
    (∀ r, (rankedOf ((sorted.map Prod.snd).sum) 1 0 sorted).getLast? = some r →
      r.cumShare = 1) := by
  have hpos : ∀ q ∈ sorted, 0 < q.2 :=
    fun q hq => hcpos q (hperm.mem_iff.mp hq)
  have hsne : sorted ≠ [] := by
    intro hs
    rw [hs] at hperm
    exact hclean (List.Perm.eq_nil hperm.symm)
  have htpos : 0 < (sorted.map Prod.snd).sum := by
    apply List.sum_pos
    · intro v hv
      obtain ⟨p, hp, rfl⟩ := List.mem_map.mp hv
      exact hpos p hp
    · simpa using hsne
  have hvol := rankedOf_map_vol ((sorted.map Prod.snd).sum) sorted 1 0
  have hkv := rankedOf_map_kv ((sorted.map Prod.snd).sum) sorted 1 0
  have hlen : (rankedOf ((sorted.map Prod.snd).sum) 1 0 sorted).length = sorted.length := by
    have := congrArg List.length hkv
    simpa using this
  have hshare := rankedOf_share ((sorted.map Prod.snd).sum) sorted 1 0
  have hbounds := rankedOf_cum_bounds ((sorted.map Prod.snd).sum) sorted 1 0 hpos
  refine ⟨?_, ?_, ?_, ?_, ?_, ?_, ?_, ?_⟩
  · rw [rankedOf_map_rank ((sorted.map Prod.snd).sum) sorted 1 0, hlen]
  · rw [← hkv] at hpair
    exact List.pairwise_map.mp hpair
  · rw [hkv]
    exact hperm
  · rw [rankedOf_map_cum ((sorted.map Prod.snd).sum) sorted 1 0, hvol]
  · intro r hr
    rw [hvol]
    exact hshare r hr
  · have hcmono := rankedOf_cum_mono ((sorted.map Prod.snd).sum) sorted 1 0 hpos
    refine hcmono.imp_of_mem ?_
    intro a b ha hb hab
    rw [hshare a ha, hshare b hb]
    exact (div_le_div_iff_of_pos_right htpos).mpr hab
  · intro r hr
    obtain ⟨h1, h2⟩ := hbounds r hr
    rw [hshare r hr]
    constructor
    · apply div_pos _ htpos
      simpa using h1
    · rw [div_le_one htpos]
      simpa using h2
  · intro r hr
    have hcum := rankedOf_last ((sorted.map Prod.snd).sum) sorted 1 0 r hr
    rw [hshare r (List.mem_of_getLast?_eq_some hr), hcum]
    simp [div_self (ne_of_gt htpos)]

/-- C3: on any input whose cleaned table (numeric coercion, then dropping
missing or non-positive volumes) is non-empty, the ranking engine returns
the surviving rows (as keyword-volume pairs, up to order) sorted by volume
descending, with ranks exactly 1..N, cumulative volume the running sum of
volume in rank order, cumulative share equal to cumulative volume over
total volume, shares non-decreasing in rank, every share in (0, 1], and the
last share exactly 1 (volumes are exact rationals here, so equality is
within the claimed ±1e-9 tolerance). -/
theorem ranking_properties (rows : List ProductRow) (out : List RankedRow)
    (h : processProductData rows = some out) :
    out.map RankedRow.rank = List.range' 1 out.length ∧
    out.Pairwise (fun a b => b.volume ≤ a.volume) ∧
    (out.map (fun r => (r.keyword, r.volume))).Perm (cleanRows rows) ∧
    out.map RankedRow.cumVolume = runningSums 0 (out.map RankedRow.volume) ∧
    (∀ r ∈ out, r.cumShare = r.cumVolume / (out.map RankedRow.volume).sum) ∧
    out.Pairwise (fun a b => a.cumShare ≤ b.cumShare) ∧
    (∀ r ∈ out, 0 < r.cumShare ∧ r.cumShare ≤ 1) ∧
    (∀ r, out.getLast? = some r → r.cumShare = 1) := by
  unfold processProductData at h
  by_cases hne : (cleanRows rows).isEmpty
  · rw [if_pos hne] at h
    cases h
  · rw [if_neg hne] at h
    injection h with h
    subst h
    exact ranking_core (cleanRows rows) (sortByVolDesc (cleanRows rows))
      (sortByVolDesc_perm (cleanRows rows)) (sortByVolDesc_pairwise (cleanRows rows))
      (by intro hcl; rw [hcl] at hne; exact hne rfl) (cleanRows_pos rows)

/-- Witness for C3: the ranking theorem applied to a concrete four-row
input (one NaN volume, one zero volume, two positive volumes). -/
theorem ranking_properties_witness :
    processProductData [⟨"c".toList, some 3⟩, ⟨"b".toList, none⟩,
        ⟨"a".toList, some 1⟩, ⟨"d".toList, some 0⟩] =
      some [⟨"c".toList, 3, 1, 3, 3/4⟩, ⟨"a".toList, 1, 2, 4, 1⟩] ∧
    ([⟨"c".toList, 3, 1, 3, 3/4⟩, ⟨"a".toList, 1, 2, 4, 1⟩] : List RankedRow).map
        RankedRow.rank = List.range' 1 2 :=
  ⟨by norm_num [processProductData, cleanRows, sortByVolDesc, insertByVol, rankedOf,
      List.filterMap_cons, List.filterMap_nil],
   (ranking_properties
      [⟨"c".toList, some 3⟩, ⟨"b".toList, none⟩, ⟨"a".toList, some 1⟩, ⟨"d".toList, some 0⟩]
      [⟨"c".toList, 3, 1, 3, 3/4⟩, ⟨"a".toList, 1, 2, 4, 1⟩]
      (by norm_num [processProductData, cleanRows, sortByVolDesc,
        insertByVol, rankedOf, List.filterMap_cons, List.filterMap_nil])).1⟩

/-! ### Merge lemmas -/

theorem mergeAcc_characterization {F : Type} (proc : F → Option Table) (nm : F → List Char) :
    ∀ (l : List F) (acc : List Table × List (List Char)),
      l.foldl (fun acc f =>
        match proc f with
        | some t => (acc.1 ++ [t], acc.2)
        | none => (acc.1, acc.2 ++ [nm f])) acc =
      (acc.1 ++ l.filterMap proc,
       acc.2 ++ (l.filter (fun f => (proc f).isNone)).map nm) := by
  intro l
  induction l with
  | nil => intro acc; simp
  | cons f fs IH =>
    intro acc
    simp only [List.foldl_cons]
    cases hp : proc f with
    | some t =>
      simp only [hp]
      rw [IH]
      simp [List.filterMap_cons, List.filter_cons, hp]
    | none =>
      simp only [hp]
      rw [IH]
      simp [List.filterMap_cons, List.filter_cons, hp]

theorem mergeAcc_eq {F : Type} (proc : F → Option Table) (nm : F → List Char) (l : List F) :
    mergeAcc proc nm l =
      (l.filterMap proc, (l.filter (fun f => (proc f).isNone)).map nm) := by
  unfold mergeAcc
  rw [mergeAcc_characterization proc nm l ([], [])]
  simp

/-- C8: in both batch-merge handlers a source file that cannot be parsed
(a corrupt archive, an archive with no `.csv`/`.xlsx` entry, or an
unparsable table) is recorded in the failed-file list and excluded from the
merge; the merge completes over exactly the successfully parsed files in
upload order and reports exactly the names of the failed files in upload
order; when zero files succeed the handler returns the empty-result warning
(with the failed names) rather than failing.  The concrete run merges one
good zip and reports the corrupt and entry-less zips as failed. -/
theorem merge_failure_isolation :
    (∀ zips : List ZipFile,
      zipMergeHandler zips =
        if (zips.filterMap processZip).isEmpty then
          MergeOutcome.noData
            ((zips.filter (fun z => (processZip z).isNone)).map ZipFile.name)
        else
          MergeOutcome.merged (concatTables (zips.filterMap processZip))
            ((zips.filter (fun z => (processZip z).isNone)).map ZipFile.name)) ∧
    (∀ files : List PlainFile,
      plainMergeHandler files =
        if (files.filterMap processPlain).isEmpty then
          MergeOutcome.noData
            ((files.filter (fun f => (processPlain f).isNone)).map PlainFile.name)
        else
          MergeOutcome.merged (concatTables (files.filterMap processPlain))
            ((files.filter (fun f => (processPlain f).isNone)).map PlainFile.name)) ∧
    zipMergeHandler
        [⟨"good.zip".toList, false,
          [⟨"data.csv".toList, some ⟨["a".toList], [[some "1".toList]]⟩⟩]⟩,
         ⟨"bad.zip".toList, true, []⟩,
         ⟨"empty.zip".toList, false, [⟨"readme.txt".toList, none⟩]⟩] =
      MergeOutcome.merged ⟨["a".toList, timeCol], [[some "1".toList, some "good".toList]]⟩
        ["bad.zip".toList, "empty.zip".toList] ∧
    zipMergeHandler [⟨"bad.zip".toList, true, []⟩] =
      MergeOutcome.noData ["bad.zip".toList] := by
  refine ⟨?_, ?_, by decide, by decide⟩
  · intro zips
    unfold zipMergeHandler
    rw [mergeAcc_eq]
  · intro files
    unfold plainMergeHandler
    rw [mergeAcc_eq]

/-- C10: when a source table already has a `时间` column the two merge
variants diverge: the zip variant's `df['时间'] = label` silently
overwrites that column in every row (header unchanged, same row count),
while the plain variant's `df.insert(0, '时间', label)` raises, so
`processPlain` fails and — concretely — the file is recorded as failed and
excluded while the merge completes over the remaining files; the final
conjunct shows the zip variant overwriting an existing `时间` cell. -/
theorem time_column_collision :
    (∀ (t : Table) (label : List Char) (i : Nat),
      t.header.findIdx? (fun h => h == timeCol) = some i →
      (∀ row ∈ t.rows, row.length = t.header.length) →
      (setCol t timeCol (some label)).header = t.header ∧
      (setCol t timeCol (some label)).rows.length = t.rows.length ∧
      ∀ row ∈ (setCol t timeCol (some label)).rows, row[i]? = some (some label)) ∧
    (∀ (t : Table) (label : List Char), timeCol ∈ t.header →
      insertColFront t timeCol (some label) = none) ∧
    (∀ (f : PlainFile) (t : Table), f.parse = some t → timeCol ∈ t.header →
      processPlain f = none) ∧
    plainMergeHandler
        [⟨"x.csv".toList, some ⟨[timeCol], [[some "old".toList]]⟩⟩,
         ⟨"y.csv".toList, some ⟨["a".toList], [[some "1".toList]]⟩⟩] =
      MergeOutcome.merged ⟨[timeCol, "a".toList], [[some "y".toList, some "1".toList]]⟩
        ["x.csv".toList] ∧
    processZip ⟨"z.zip".toList, false,
        [⟨"d.csv".toList,
          some ⟨[timeCol, "a".toList], [[some "old".toList, some "1".toList]]⟩⟩]⟩ =
      some ⟨[timeCol, "a".toList], [[some "z".toList, some "1".toList]]⟩ := by
  refine ⟨?_, ?_, ?_, by decide, by decide⟩
  · intro t label i hidx hlen
    have hi : i < t.header.length := (List.findIdx?_eq_some_iff_findIdx_eq.mp hidx).1
    unfold setCol
    rw [hidx]
    refine ⟨rfl, by simp, ?_⟩
    intro row hrow
    obtain ⟨row0, hrow0, rfl⟩ := List.mem_map.mp hrow
    exact List.getElem?_set_self (by rw [hlen row0 hrow0]; exact hi)
  · intro t label hmem
    unfold insertColFront
    rw [if_pos (by simpa using hmem)]
  · intro f t hparse hmem
    unfold processPlain
    rw [hparse]
    simp only [insertColFront]
    rw [if_pos (by simpa using hmem)]

/-! ### Frame lemmas for the matcher's state -/

theorem foldl_modify_shift {β : Type} (g : β → β) :
    ∀ (n k : Nat) (y : β) (ys : List β),
      (List.range' (k + 1) n).foldl (fun acc i => acc.modify g i) (y :: ys) =
        y :: (List.range' k n).foldl (fun acc i => acc.modify g i) ys := by
  intro n
  induction n with
  | zero => intro k y ys; rfl
  | succ n IH =>
    intro k y ys
    rw [List.range'_succ, List.range'_succ]
    simp only [List.foldl_cons]
    rw [show List.modify g (k + 1) (y :: ys) = y :: List.modify g k ys from rfl]
    exact IH (k + 1) y (List.modify g k ys)

theorem foldl_modify_map {β : Type} (g : β → β) :
    ∀ l : List β,
      (List.range' 0 l.length).foldl (fun acc i => acc.modify g i) l = l.map g := by
  intro l
  induction l with
  | nil => rfl
  | cons x xs IH =>
    rw [List.length_cons, List.range'_succ]
    simp only [List.foldl_cons]
    rw [show List.modify g 0 (x :: xs) = g x :: xs from rfl]
    rw [foldl_modify_shift g xs.length 0 (g x) xs]
    rw [IH]
    rfl

theorem foldl_loopBody_map {α : Type} (m : List (List Char × List Char))
    (bd : List (List Char)) (l : List (WorkRow α)) :
    (List.range' 0 l.length).foldl (loopBody m bd) l = l.map (applyMatch m bd) := by
  show (List.range' 0 l.length).foldl
    (fun acc i => acc.modify (applyMatch m bd) i) l = l.map (applyMatch m bd)
  exact foldl_modify_map (applyMatch m bd) l

theorem matchBrandsExec_eq {α : Type} (p : List (List Char × α))
    (bd : List (List Char)) (rules : List (List Char × List Char)) :
    matchBrandsExec p bd rules = matchBrands p bd rules := by
  unfold matchBrandsExec matchBrands
  by_cases hp : p.isEmpty
  · rw [if_pos hp, if_pos hp]
  · rw [if_neg hp, if_neg hp]
    by_cases hb : bd.isEmpty
    · rw [if_pos hb, if_pos hb]
    · rw [if_neg hb, if_neg hb]
      congr 1
      rw [List.range_eq_range', foldl_loopBody_map]
      unfold finishWork initWork
      rw [List.map_map, List.map_map]
      apply List.map_congr_left
      intro r _
      by_cases h : truthy (matchVars (buildManualMap rules) bd (lowTok r.1)).1 <;>
        simp [Function.comp, applyMatch, matchRowOf, h]

/-- C9: the matcher's writes go only to the working copy and the results
slot: running the matcher leaves the product table, the brand table and the
manual-rule table of the session state unchanged (the working table is a
copy allocated by the run, sharing nothing with the state's inputs in this
embedding), running it again on the resulting state reproduces the same
results, and the stored results are exactly the pure `match_brands`
function of the inputs. -/
theorem match_brands_frame {α : Type} (s : MatchState α) :
    (runMatch s).product = s.product ∧
    (runMatch s).brand = s.brand ∧
    (runMatch s).rules = s.rules ∧
    (runMatch (runMatch s)).results = (runMatch s).results ∧
    (∀ p bd, s.product = some p → s.brand = some bd →
      (runMatch s).results = matchBrands p bd s.rules) := by
  cases hp : s.product with
  | none =>
    cases hb : s.brand with
    | none =>
      refine ⟨?_, ?_, ?_, ?_, ?_⟩ <;> simp [runMatch, hp, hb]
    | some bd =>
      refine ⟨?_, ?_, ?_, ?_, ?_⟩ <;> simp [runMatch, hp, hb]
  | some p =>
    cases hb : s.brand with
    | none =>
      refine ⟨?_, ?_, ?_, ?_, ?_⟩ <;> simp [runMatch, hp, hb]
    | some bd =>
      refine ⟨?_, ?_, ?_, ?_, ?_⟩ <;> simp [runMatch, hp, hb, matchBrandsExec_eq]

end SITools
